import Mathlib

/-!
Verification of the chunked file-transfer engine of app.js (ShareDrop).

The development shallowly embeds the parts of app.js that the claims are
about: the constants (lines 29-31), the send loop of sendNextFile
(lines 417-498) together with finalizeSendAll and the txMeta status
bookkeeping, the backpressure discipline (lines 444-450, waitForDrain,
sendControl), and the receive engine (onData, startRx, receiveChunk,
finalizeRx, lines 846-926).  Files and chunks are byte lists.  The
asynchronous environment of the send loop (read failures, send failures,
user pause and cancel actions, all observed at the suspension points of
the loop) is made explicit as a schedule of events consumed by the loop,
and the evolution of the channel buffer dc.bufferedAmount is modelled as
a step relation interleaving the loop's sends with network drains.
-/

namespace ShareDrop

/-- Constant from app.js line 29: 64 KiB chunk size used by the send loop. -/
def CHUNK_SIZE : Nat := 64 * 1024

/-- Constant from app.js line 30: high-water mark; sending pauses above this. -/
def BUFFER_THRESHOLD : Nat := 4 * 1024 * 1024

/-- Constant from app.js line 31: low-water mark; waitForDrain resolves at or
below this (it is also installed as dc.bufferedAmountLowThreshold). -/
def BUFFER_RESUME : Nat := 512 * 1024

/-- Chunking of a byte list, mirroring the slices taken by the send loop:
file.slice(txOffset, Math.min(txOffset + CHUNK_SIZE, file.size)) followed by
txOffset += buf.byteLength, iterated until txOffset reaches file.size.
Stated for a general chunk size C; the engine instantiates C = CHUNK_SIZE. -/
def chunksOf (C : Nat) : List Nat → List (List Nat)
  | [] => []
  | a :: rest => ((a :: rest).take C) :: chunksOf C (rest.drop (C - 1))
termination_by l => l.length
decreasing_by
  simp only [List.length_drop, List.length_cons]
  omega

/-- Total number of bytes held by a list of binary buffers. -/
def totalLen (bufs : List (List Nat)) : Nat := (bufs.map List.length).sum

/-- Payload of a meta control message (app.js line 426): name, size and
content type of the file about to be sent. -/
structure RxMeta where
  name : String
  size : Nat
  mimeType : String
deriving DecidableEq

/-- The artifact assembled by finalizeRx (app.js lines 907-926): the Blob
built from the accumulated chunks, tagged with the name, declared size and
content type recorded from the meta message (addRxHistory at line 920). -/
structure Artifact where
  name : String
  size : Nat
  mimeType : String
  data : List Nat
deriving DecidableEq

/-- Receiver state: the globals rxMeta, rxChunks, rxBytes of app.js
(lines 59-61) plus the list of artifacts saved so far by finalizeRx. -/
structure RxState where
  rxMeta : Option RxMeta
  rxChunks : List (List Nat)
  rxBytes : Nat
  artifacts : List Artifact
deriving DecidableEq

/-- startRx (app.js lines 879-889): open a fresh receive session for the
announced file, resetting the chunk buffer and the byte counter. -/
def startRx (meta : RxMeta) (s : RxState) : RxState :=
  { s with rxMeta := some meta, rxChunks := [], rxBytes := 0 }

/-- finalizeRx (app.js lines 907-926): if no session is open, do nothing;
otherwise capture meta and chunks, reset the session state, and assemble
the Blob from the captured chunks, recording it as a saved artifact. -/
def finalizeRx (s : RxState) : RxState :=
  match s.rxMeta with
  | none => s
  | some meta =>
      { rxMeta := none, rxChunks := [], rxBytes := 0,
        artifacts := s.artifacts ++
          [{ name := meta.name, size := meta.size, mimeType := meta.mimeType,
             data := s.rxChunks.flatten }] }

/-- receiveChunk (app.js lines 891-905): append the buffer, add its byte
length to rxBytes, and finalize as soon as rxBytes ≥ rxMeta.size. -/
def receiveChunk (buf : List Nat) (s : RxState) : RxState :=
  match s.rxMeta with
  | none => s
  | some meta =>
      let s2 : RxState :=
        { s with rxChunks := s.rxChunks ++ [buf], rxBytes := s.rxBytes + buf.length }
      if meta.size ≤ s2.rxBytes then finalizeRx s2 else s2

/-- Inbound messages as dispatched by onData (app.js lines 846-874): the
tagged JSON control messages and raw binary chunks. -/
inductive Msg
  | meta (m : RxMeta)
  | done
  | cancel
  | ping
  | binary (buf : List Nat)
deriving DecidableEq

/-- onData (app.js lines 846-874): dispatch one inbound message.  A binary
chunk with no open session is dropped (line 866); a cancel resets the
session state without producing an artifact (lines 853-858). -/
def onData (d : Msg) (s : RxState) : RxState :=
  match d with
  | Msg.meta m => startRx m s
  | Msg.done => finalizeRx s
  | Msg.cancel => { s with rxMeta := none, rxChunks := [], rxBytes := 0 }
  | Msg.ping => s
  | Msg.binary buf =>
      match s.rxMeta with
      | none => s
      | some _ => receiveChunk buf s

/-- A receiver run: fold onData over the arrival-ordered message list. -/
def runRx (msgs : List Msg) (s : RxState) : RxState :=
  msgs.foldl (fun st d => onData d st) s

/-- The receiver's idle state: no session, no buffers, nothing saved. -/
def rxInit : RxState :=
  { rxMeta := none, rxChunks := [], rxBytes := 0, artifacts := [] }

/-- Events observed by the chunk loop at its suspension points. -/
inductive Ev
  | ok
  | pause
  | readErr
  | sendErr
  | cancelNow
deriving DecidableEq

/-- Terminal outcome of one run of the chunk loop for one file. -/
inductive Outcome
  | completed
  | cancelled
  | readError
  | sendError
deriving DecidableEq

/-- One run of the chunk loop of sendNextFile (app.js lines 436-480) for
the currently active file, as a function of the schedule of events observed
at the suspension points of the loop.  Each iteration consumes one event:
* Ev.ok — the iteration proceeds: the slice is read and sent, and txOffset
  advances by buf.byteLength (lines 453, 465, 472);
* Ev.pause — isPaused was observed set (line 439): waitForResume suspends
  the loop and nothing is read or sent at this observation (lines 517-521);
* Ev.readErr — readSlice rejects (lines 455-461);
* Ev.sendErr — conn.send throws (lines 465-470);
* Ev.cancelNow — isCancelled was observed set: the loop breaks (lines 436,
  441, 449, 462) having sent nothing further for this file.
An empty schedule means no further environment interference (every read
and send succeeds).  Once txOffset has reached file.size, a pending
cancellation event models isCancelled having been set during the final
iteration, which line 484 observes after the loop exits.
Returns the outcome, the chunks sent on the channel, and the remaining
schedule.  The backpressure waits of lines 444-450 do not touch the
transfer state and are modelled separately by BufStep below. -/
def chunkLoop (content : List Nat) (offset : Nat) (sched : List Ev) :
    Outcome × List (List Nat) × List Ev :=
  if hend : content.length ≤ offset then
    match sched with
    | Ev.cancelNow :: rest => (Outcome.cancelled, [], rest)
    | _ => (Outcome.completed, [], sched)
  else
    match sched with
    | [] =>
        let buf := (content.drop offset).take CHUNK_SIZE
        let r := chunkLoop content (offset + buf.length) []
        (r.1, buf :: r.2.1, r.2.2)
    | Ev.ok :: rest =>
        let buf := (content.drop offset).take CHUNK_SIZE
        let r := chunkLoop content (offset + buf.length) rest
        (r.1, buf :: r.2.1, r.2.2)
    | Ev.pause :: rest => chunkLoop content offset rest
    | Ev.readErr :: rest => (Outcome.readError, [], rest)
    | Ev.sendErr :: rest => (Outcome.sendError, [], rest)
    | Ev.cancelNow :: rest => (Outcome.cancelled, [], rest)
termination_by (content.length - offset, sched.length)
decreasing_by
  all_goals
    first
      | (apply Prod.Lex.right
         simp only [List.length_cons]
         omega)
      | (apply Prod.Lex.left
         simp only [List.length_take, List.length_drop, CHUNK_SIZE]
         omega)

/-- Outcome produced when the chunk loop is interrupted by the given
event (readErr, sendErr or cancelNow). -/
def errOutcome : Ev → Outcome
  | Ev.readErr => Outcome.readError
  | Ev.sendErr => Outcome.sendError
  | _ => Outcome.cancelled

/-- Status of a queue entry (the txMeta records of app.js line 320, mutated
by setFileStatus): the spec's FileEntry status enum.  The paused status is
set only by the UI handler togglePause (line 552), never by the engine. -/
inductive Status
  | pending
  | active
  | paused
  | done
  | error
deriving DecidableEq

/-- Number of queue entries currently marked active. -/
def countActive (metas : List Status) : Nat :=
  metas.countP (fun st => st == Status.active)

/-- Control messages emitted by sendControl during a run (app.js lines 426,
485, 491), instrumented with the index of the queue entry being processed
when the message was emitted. -/
inductive Ctl
  | meta
  | done
  | cancel
deriving DecidableEq

/-- Observable result of a run of the queue engine: the final statuses, the
chunks sent per queue entry, the emitted control messages, and the trace of
txMeta status snapshots recorded after every status mutation. -/
structure RunResult where
  metas : List Status
  chunksPer : List (List (List Nat))
  msgs : List (Nat × Ctl)
  trace : List (List Status)
deriving DecidableEq

/-- The queue engine sendNextFile (app.js lines 417-498): skip non-pending
entries (line 418); stop when the queue is exhausted or cancelled
(line 419, finalizeSendAll); otherwise mark the entry active, emit meta
(line 426), run the chunk loop from offset 0, and dispatch on its outcome:
completed — emit done, mark done, advance (lines 491-497); read error —
mark error, advance (lines 456-461); send error — mark error, abort the
whole queue (lines 466-470); cancelled — emit cancel, mark error, halt
without advancing (lines 484-489).  The schedule left over by one file's
chunk loop carries over to the next file. -/
def sendLoop (files : List (List Nat)) (metas : List Status)
    (chunksPer : List (List (List Nat))) (msgs : List (Nat × Ctl))
    (trace : List (List Status)) (txIdx : Nat) (cancelled : Bool)
    (sched : List Ev) : RunResult :=
  if h : files.length ≤ txIdx ∨ cancelled = true then
    ⟨metas, chunksPer, msgs, trace⟩
  else if metas.getD txIdx Status.pending ≠ Status.pending then
    sendLoop files metas chunksPer msgs trace (txIdx + 1) cancelled sched
  else
    let content := files.getD txIdx []
    let metas1 := metas.set txIdx Status.active
    let trace1 := trace ++ [metas1]
    let msgs1 := msgs ++ [(txIdx, Ctl.meta)]
    let r := chunkLoop content 0 sched
    let chunksPer1 := chunksPer.set txIdx r.2.1
    match r.1 with
    | Outcome.completed =>
        let metas2 := metas1.set txIdx Status.done
        sendLoop files metas2 chunksPer1 (msgs1 ++ [(txIdx, Ctl.done)])
          (trace1 ++ [metas2]) (txIdx + 1) cancelled r.2.2
    | Outcome.readError =>
        let metas2 := metas1.set txIdx Status.error
        sendLoop files metas2 chunksPer1 msgs1 (trace1 ++ [metas2])
          (txIdx + 1) cancelled r.2.2
    | Outcome.sendError =>
        let metas2 := metas1.set txIdx Status.error
        ⟨metas2, chunksPer1, msgs1, trace1 ++ [metas2]⟩
    | Outcome.cancelled =>
        let metas2 := metas1.set txIdx Status.error
        ⟨metas2, chunksPer1, msgs1 ++ [(txIdx, Ctl.cancel)], trace1 ++ [metas2]⟩
termination_by files.length - txIdx
decreasing_by
  all_goals omega

/-- Entry point startSend (app.js lines 392-406): a fresh all-pending queue
for the given files, txIdx = 0, cancellation and pause flags reset; the
initial status snapshot opens the trace. -/
def runEngine (files : List (List Nat)) (sched : List Ev) : RunResult :=
  sendLoop files (List.replicate files.length Status.pending)
    (List.replicate files.length []) []
    [List.replicate files.length Status.pending] 0 false sched

/-- Sum of the sizes of the files whose queue entry has status done. -/
def doneBytes (files : List (List Nat)) (metas : List Status) : Nat :=
  (((files.zip metas).filter (fun p => p.2 == Status.done)).map
    (fun p => p.1.length)).sum

/-- Total number of bytes sent as binary chunks over a run. -/
def totalSent (r : RunResult) : Nat := (r.chunksPer.map totalLen).sum

/-- Evolution of dc.bufferedAmount during a transfer.  The loop is the only
writer of the channel, so between its sends the counter only decreases
(drain).  A chunk send (line 465) is only reached when bufferedAmount was
observed at or below BUFFER_THRESHOLD (line 445), or after waitForDrain
resolved at or below BUFFER_RESUME ≤ BUFFER_THRESHOLD (lines 523-534), and
the counter cannot grow between that observation and the send; the chunk
itself holds at most CHUNK_SIZE bytes.  A control message send by
sendControl (lines 512-515) is performed with no backpressure check at all
and adds the JSON text's length. -/
inductive BufStep : Nat → Nat → Prop
  | drain (b d : Nat) : BufStep b (b - d)
  | sendChunk (b len : Nat) (hlen : len ≤ CHUNK_SIZE)
      (hb : b ≤ BUFFER_THRESHOLD) : BufStep b (b + len)
  | sendCtl (b len : Nat) : BufStep b (b + len)

/-- States of dc.bufferedAmount reachable from an initially empty channel
by drains, backpressure-gated chunk sends and unguarded control sends. -/
def BufReachable (b : Nat) : Prop := Relation.ReflTransGen BufStep 0 b

/-- The same evolution restricted to the sends performed inside the chunk
loop (which are exactly the sends gated by the drain check of line 445):
network drains and chunk sends only. -/
inductive ChunkStep : Nat → Nat → Prop
  | drain (b d : Nat) : ChunkStep b (b - d)
  | sendChunk (b len : Nat) (hlen : len ≤ CHUNK_SIZE)
      (hb : b ≤ BUFFER_THRESHOLD) : ChunkStep b (b + len)

/-- States of dc.bufferedAmount reachable when only the chunk loop's own
gated sends are performed on the channel. -/
def ChunkReachable (b : Nat) : Prop := Relation.ReflTransGen ChunkStep 0 b

lemma CHUNK_SIZE_pos : 0 < CHUNK_SIZE := by decide

lemma chunksOf_nil (C : Nat) : chunksOf C [] = [] := by
  rw [chunksOf]

/-- Unfolding of chunksOf on a nonempty list for a positive chunk size,
phrased with full-list take and drop. -/
lemma chunksOf_cons (C : Nat) (hC : 0 < C) (a : Nat) (rest : List Nat) :
    chunksOf C (a :: rest) =
      ((a :: rest).take C) :: chunksOf C ((a :: rest).drop C) := by
  rw [chunksOf]
  obtain ⟨D, rfl⟩ : ∃ D, C = D + 1 := ⟨C - 1, by omega⟩
  simp

lemma totalLen_nil : totalLen [] = 0 := rfl

lemma totalLen_cons (b : List Nat) (bs : List (List Nat)) :
    totalLen (b :: bs) = b.length + totalLen bs := by
  simp [totalLen]

lemma totalLen_append (xs ys : List (List Nat)) :
    totalLen (xs ++ ys) = totalLen xs + totalLen ys := by
  simp [totalLen]

lemma totalLen_flatten (bs : List (List Nat)) :
    bs.flatten.length = totalLen bs := by
  simp [totalLen, List.length_flatten]

/-- The chunks concatenate back to the original list. -/
lemma chunksOf_join (C : Nat) (hC : 0 < C) (l : List Nat) :
    (chunksOf C l).flatten = l := by
  induction l using chunksOf.induct C with
  | case1 => simp [chunksOf_nil]
  | case2 a rest ih =>
      rw [chunksOf_cons C hC]
      obtain ⟨D, rfl⟩ : ∃ D, C = D + 1 := ⟨C - 1, by omega⟩
      simp only [Nat.add_sub_cancel] at ih
      simp only [List.flatten_cons, List.drop_succ_cons, List.take_succ_cons,
        List.cons_append]
      rw [ih, List.take_append_drop]

/-- The total number of bytes across the chunks is the file size. -/
lemma chunksOf_totalLen (C : Nat) (hC : 0 < C) (l : List Nat) :
    totalLen (chunksOf C l) = l.length := by
  rw [← totalLen_flatten, chunksOf_join C hC]

/-- Each chunk is nonempty. -/
lemma chunksOf_ne_nil (C : Nat) (hC : 0 < C) (l : List Nat) :
    ∀ b ∈ chunksOf C l, b ≠ [] := by
  induction l using chunksOf.induct C with
  | case1 => simp [chunksOf_nil]
  | case2 a rest ih =>
      rw [chunksOf_cons C hC]
      intro b hb
      rcases List.mem_cons.mp hb with h | h
      · subst h
        obtain ⟨D, rfl⟩ : ∃ D, C = D + 1 := ⟨C - 1, by omega⟩
        simp
      · obtain ⟨D, rfl⟩ : ∃ D, C = D + 1 := ⟨C - 1, by omega⟩
        simp only [Nat.add_sub_cancel] at ih
        exact ih b (by simpa using h)

/-- Ceiling-style successor step for the chunk count arithmetic. -/
lemma ceil_div_succ (C S : Nat) (hC : 0 < C) (hS : 0 < S) :
    (S + C - 1) / C = (S - 1) / C + 1 := by
  have h : S + C - 1 = (S - 1) + C := by omega
  rw [h, Nat.add_div_right _ hC]

/-- The number of chunks is the ceiling of size over chunk size. -/
lemma chunksOf_length (C : Nat) (hC : 0 < C) (l : List Nat) :
    (chunksOf C l).length = (l.length + C - 1) / C := by
  induction l using chunksOf.induct C with
  | case1 =>
      rw [chunksOf_nil]
      simp [Nat.div_eq_of_lt (show C - 1 < C by omega)]
  | case2 a rest ih =>
      rw [chunksOf_cons C hC]
      obtain ⟨D, rfl⟩ : ∃ D, C = D + 1 := ⟨C - 1, by omega⟩
      simp only [Nat.add_sub_cancel] at ih
      simp only [List.length_cons, List.drop_succ_cons, List.length_drop] at ih ⊢
      rw [ih, ceil_div_succ (D + 1) (rest.length + 1) (by omega) (by omega)]
      simp only [Nat.add_sub_cancel]
      congr 1
      rcases le_or_lt D rest.length with h | h
      · congr 1
        omega
      · have h1 : rest.length - D = 0 := by omega
        rw [h1]
        rw [Nat.div_eq_of_lt (by omega), Nat.div_eq_of_lt (by omega)]

/-- A prefix of k chunks concatenates to the first k * C bytes. -/
lemma chunksOf_take_flatten (C : Nat) (hC : 0 < C) (l : List Nat) :
    ∀ k, ((chunksOf C l).take k).flatten = l.take (k * C) := by
  induction l using chunksOf.induct C with
  | case1 => intro k; simp [chunksOf_nil]
  | case2 a rest ih =>
      intro k
      cases k with
      | zero => simp
      | succ k =>
          rw [chunksOf_cons C hC]
          obtain ⟨D, rfl⟩ : ∃ D, C = D + 1 := ⟨C - 1, by omega⟩
          simp only [Nat.add_sub_cancel] at ih
          simp only [List.take_succ_cons, List.flatten_cons, List.drop_succ_cons]
          rw [ih k]
          have harith : (k + 1) * (D + 1) = (D + 1) + k * (D + 1) := by ring
          rw [harith, List.take_add]
          simp

/-- The last chunk's length is S mod C, or C when C divides S > 0. -/
lemma chunksOf_getLast_length (C : Nat) (hC : 0 < C) (l : List Nat) (hl : l ≠ []) :
    ((chunksOf C l).map List.length).getLast? =
      some (if l.length % C = 0 then C else l.length % C) := by
  induction l using chunksOf.induct C with
  | case1 => exact absurd rfl hl
  | case2 a rest ih =>
      rw [chunksOf_cons C hC]
      obtain ⟨D, rfl⟩ : ∃ D, C = D + 1 := ⟨C - 1, by omega⟩
      simp only [Nat.add_sub_cancel] at ih
      by_cases h : (a :: rest).drop (D + 1) = []
      · rw [h, chunksOf_nil]
        have hlen : (a :: rest).length ≤ D + 1 := List.drop_eq_nil_iff.mp h
        simp only [List.length_cons] at hlen
        simp only [List.map_cons, List.map_nil, List.length_take, List.length_cons]
        have hmin : min (D + 1) (rest.length + 1) = rest.length + 1 := by omega
        rw [hmin]
        rcases Nat.lt_or_ge (rest.length + 1) (D + 1) with hlt | hge
        · rw [Nat.mod_eq_of_lt hlt, if_neg (by omega)]
          simp
        · have heq : rest.length + 1 = D + 1 := by omega
          rw [heq, Nat.mod_self, if_pos rfl]
          simp
      · have h2 : rest.drop D ≠ [] := by simpa using h
        have ihx := ih h2
        have hgt : ¬ (a :: rest).length ≤ D + 1 :=
          fun hh => h (List.drop_eq_nil_of_le hh)
        simp only [List.drop_succ_cons]
        rw [show ((a :: rest).take (D + 1)) :: chunksOf (D + 1) (rest.drop D)
              = [((a :: rest).take (D + 1))] ++ chunksOf (D + 1) (rest.drop D)
            from rfl]
        rw [List.map_append, List.getLast?_append, ihx]
        simp only [Option.or_some]
        congr 1
        have hlen : (a :: rest).length = (rest.drop D).length + (D + 1) := by
          simp only [List.length_drop, List.length_cons] at hgt ⊢
          omega
        rw [hlen, Nat.add_mod_right]

lemma runRx_nil (s : RxState) : runRx [] s = s := rfl

lemma runRx_cons (d : Msg) (ds : List Msg) (s : RxState) :
    runRx (d :: ds) s = runRx ds (onData d s) := rfl

lemma runRx_append (xs ys : List Msg) (s : RxState) :
    runRx (xs ++ ys) s = runRx ys (runRx xs s) := by
  simp [runRx, List.foldl_append]

/-- Computation of one binary-chunk step on an open session: the chunk is
appended and the byte counter advances; if the counter reaches the declared
size, finalizeRx fires at once (app.js line 904). -/
lemma onData_binary_open (m : RxMeta) (acc : List (List Nat)) (b : Nat)
    (arts : List Artifact) (buf : List Nat) :
    onData (Msg.binary buf) ⟨some m, acc, b, arts⟩ =
      if m.size ≤ b + buf.length
      then ⟨none, [], 0,
        arts ++ [⟨m.name, m.size, m.mimeType, (acc ++ [buf]).flatten⟩]⟩
      else ⟨some m, acc ++ [buf], b + buf.length, arts⟩ := rfl

/-- Feeding an open session a run of binary chunks whose cumulative byte
count first reaches the declared size at the last chunk: every chunk is
appended, and the crossing chunk triggers finalizeRx (app.js line 904),
which saves one artifact assembled from all accumulated chunks and closes
the session. -/
lemma runRx_fill (m : RxMeta) :
    ∀ (bufs acc : List (List Nat)) (b : Nat) (arts : List Artifact),
      bufs ≠ [] →
      (∀ j, 0 < j → j < bufs.length → b + totalLen (bufs.take j) < m.size) →
      m.size ≤ b + totalLen bufs →
      runRx (bufs.map Msg.binary) ⟨some m, acc, b, arts⟩ =
        ⟨none, [], 0, arts ++
          [⟨m.name, m.size, m.mimeType, (acc ++ bufs).flatten⟩]⟩ := by
  intro bufs
  induction bufs with
  | nil => intro acc b arts hne _ _; exact absurd rfl hne
  | cons buf rest ih =>
      intro acc b arts _ hpre hcross
      cases rest with
      | nil =>
          have hge : m.size ≤ b + buf.length := by
            simpa [totalLen_cons, totalLen_nil] using hcross
          simp only [List.map_cons, List.map_nil, runRx_cons, runRx_nil]
          rw [onData_binary_open, if_pos hge]
      | cons buf2 rest2 =>
          have hlt : b + buf.length < m.size := by
            have h1 := hpre 1 (by omega) (by simp only [List.length_cons]; omega)
            simpa [List.take_succ_cons, totalLen_cons, totalLen_nil] using h1
          rw [List.map_cons, runRx_cons]
          rw [onData_binary_open, if_neg (by omega)]
          have hx := ih (acc ++ [buf]) (b + buf.length) arts (by simp)
            (by
              intro j hj hjlen
              have h2 := hpre (j + 1) (by omega)
                (by simp only [List.length_cons] at hjlen ⊢; omega)
              simp only [List.take_succ_cons, totalLen_cons] at h2
              omega)
            (by
              simp only [totalLen_cons] at hcross ⊢
              omega)
          rw [hx]
          simp [List.append_assoc]

/-- Feeding an open session binary chunks that never reach the declared
size: every chunk is appended, the byte counter advances, and nothing
finalizes. -/
lemma runRx_under (m : RxMeta) :
    ∀ (bufs acc : List (List Nat)) (b : Nat) (arts : List Artifact),
      (∀ j, 0 < j → j ≤ bufs.length → b + totalLen (bufs.take j) < m.size) →
      runRx (bufs.map Msg.binary) ⟨some m, acc, b, arts⟩ =
        ⟨some m, acc ++ bufs, b + totalLen bufs, arts⟩ := by
  intro bufs
  induction bufs with
  | nil => intro acc b arts _; simp [runRx_nil, totalLen_nil]
  | cons buf rest ih =>
      intro acc b arts hpre
      have hlt : b + buf.length < m.size := by
        have h1 := hpre 1 (by omega) (by simp only [List.length_cons]; omega)
        simpa [List.take_succ_cons, totalLen_cons, totalLen_nil] using h1
      rw [List.map_cons, runRx_cons]
      rw [onData_binary_open, if_neg (by omega)]
      have hx := ih (acc ++ [buf]) (b + buf.length) arts
        (by
          intro j hj hjlen
          have h2 := hpre (j + 1) (by omega)
            (by simp only [List.length_cons] at hjlen ⊢; omega)
          simp only [List.take_succ_cons, totalLen_cons] at h2
          omega)
      rw [hx]
      have harr : (acc ++ [buf]) ++ rest = acc ++ buf :: rest := by simp
      have hb : b + buf.length + totalLen rest = b + totalLen (buf :: rest) := by
        simp only [totalLen_cons]
        omega
      rw [harr, hb]

/-- C7: the receiver finalizes immediately when cumulative received bytes
reach or exceed the declared size, without waiting for done; a subsequent
done finalizes only if the session was not already finalized, and
finalizeRx with no open session is a no-op, so the two completion triggers
are idempotent against each other and never produce a duplicate artifact. -/
theorem dual_completion (s : RxState) (m : RxMeta) (hm : s.rxMeta = some m)
    (buf : List Nat) (hge : m.size ≤ s.rxBytes + buf.length) :
    (onData (Msg.binary buf) s).rxMeta = none ∧
    (onData (Msg.binary buf) s).artifacts.length = s.artifacts.length + 1 ∧
    onData Msg.done (onData (Msg.binary buf) s) = onData (Msg.binary buf) s ∧
    (∀ t : RxState, t.rxMeta = none → finalizeRx t = t) := by
  obtain ⟨mo, chunks, bytes, arts⟩ := s
  have hm2 : mo = some m := hm
  subst hm2
  have hge2 : m.size ≤ bytes + buf.length := hge
  rw [onData_binary_open, if_pos hge2]
  refine ⟨rfl, by simp, rfl, ?_⟩
  intro t ht
  obtain ⟨tmo, tc, tb, ta⟩ := t
  have ht2 : tmo = none := ht
  subst ht2
  rfl

/-- Witness for dual_completion: a session declared 2 bytes with 1 byte
received, crossed by a 1-byte chunk. -/
theorem dual_completion_witness :
    (onData (Msg.binary [9]) ⟨some ⟨"f", 2, "t"⟩, [[1]], 1, []⟩).rxMeta = none ∧
    (onData (Msg.binary [9])
        ⟨some ⟨"f", 2, "t"⟩, [[1]], 1, []⟩).artifacts.length =
      (⟨some ⟨"f", 2, "t"⟩, [[1]], 1, []⟩ : RxState).artifacts.length + 1 ∧
    onData Msg.done (onData (Msg.binary [9]) ⟨some ⟨"f", 2, "t"⟩, [[1]], 1, []⟩) =
      onData (Msg.binary [9]) ⟨some ⟨"f", 2, "t"⟩, [[1]], 1, []⟩ ∧
    (∀ t : RxState, t.rxMeta = none → finalizeRx t = t) :=
  dual_completion ⟨some ⟨"f", 2, "t"⟩, [[1]], 1, []⟩ ⟨"f", 2, "t"⟩ rfl [9]
    (by decide)

/-- C8: a meta message processed while a session is open silently replaces
it: the previous session's buffers are discarded, the byte counter resets
to 0, a fresh session opens with the new meta, and no error is signalled
(the saved artifacts are untouched and nothing else changes). -/
theorem silent_session_replacement (s : RxState) (m0 m : RxMeta)
    (h : s.rxMeta = some m0) :
    onData (Msg.meta m) s = ⟨some m, [], 0, s.artifacts⟩ := by
  obtain ⟨mo, chunks, bytes, arts⟩ := s
  rfl

/-- Witness for silent_session_replacement at a concrete open session. -/
theorem silent_session_replacement_witness :
    onData (Msg.meta ⟨"b", 5, "u"⟩) ⟨some ⟨"a", 9, "t"⟩, [[1, 2]], 2, []⟩ =
      ⟨some ⟨"b", 5, "u"⟩, [], 0,
        (⟨some ⟨"a", 9, "t"⟩, [[1, 2]], 2, []⟩ : RxState).artifacts⟩ :=
  silent_session_replacement ⟨some ⟨"a", 9, "t"⟩, [[1, 2]], 2, []⟩
    ⟨"a", 9, "t"⟩ ⟨"b", 5, "u"⟩ rfl

/-- C10: when cumulative received bytes reach or exceed the declared size,
finalization fires on the crossing chunk and the artifact keeps every byte
of every chunk received into the session — no truncation — so the
artifact's length is the total bytes received, which can strictly exceed
the declared size (second conjunct: a session declared 1 byte receiving a
2-byte chunk saves a 2-byte artifact). -/
theorem over_delivery (m : RxMeta) (bufs : List (List Nat)) (hne : bufs ≠ [])
    (hpre : ∀ j, 0 < j → j < bufs.length → totalLen (bufs.take j) < m.size)
    (hcross : m.size ≤ totalLen bufs) :
    ((runRx (Msg.meta m :: bufs.map Msg.binary) rxInit).artifacts =
        [⟨m.name, m.size, m.mimeType, bufs.flatten⟩] ∧
      bufs.flatten.length = totalLen bufs) ∧
    (runRx [Msg.meta ⟨"x", 1, "t"⟩, Msg.binary [5, 6]] rxInit).artifacts =
      [⟨"x", 1, "t", [5, 6]⟩] := by
  refine ⟨⟨?_, totalLen_flatten bufs⟩, rfl⟩
  rw [runRx_cons]
  have hstart : onData (Msg.meta m) rxInit = ⟨some m, [], 0, []⟩ := rfl
  rw [hstart]
  rw [runRx_fill m bufs [] 0 [] hne
    (by intro j h1 h2; simpa using hpre j h1 h2) (by simpa using hcross)]
  simp

/-- Witness for over_delivery: one 2-byte chunk against a declared size of
2 bytes. -/
theorem over_delivery_witness :
    ((runRx (Msg.meta ⟨"y", 2, "u"⟩ :: [[7, 8]].map Msg.binary) rxInit).artifacts =
        [⟨"y", 2, "u", ([[7, 8]] : List (List Nat)).flatten⟩] ∧
      ([[7, 8]] : List (List Nat)).flatten.length = totalLen [[7, 8]]) ∧
    (runRx [Msg.meta ⟨"x", 1, "t"⟩, Msg.binary [5, 6]] rxInit).artifacts =
      [⟨"x", 1, "t", [5, 6]⟩] :=
  over_delivery ⟨"y", 2, "u"⟩ [[7, 8]] (by decide)
    (fun j h1 h2 => absurd h1
      (by simp only [List.length_cons, List.length_nil] at h2; omega))
    (by decide)

lemma chunkLoop_done (content : List Nat) (offset : Nat) (sched : List Ev)
    (hend : content.length ≤ offset) (hs : sched.head? ≠ some Ev.cancelNow) :
    chunkLoop content offset sched = (Outcome.completed, [], sched) := by
  rw [chunkLoop.eq_def, dif_pos hend]
  cases sched with
  | nil => rfl
  | cons e rest =>
      cases e with
      | ok => rfl
      | pause => rfl
      | readErr => rfl
      | sendErr => rfl
      | cancelNow => exact absurd rfl hs

lemma chunkLoop_done_cancel (content : List Nat) (offset : Nat) (rest : List Ev)
    (hend : content.length ≤ offset) :
    chunkLoop content offset (Ev.cancelNow :: rest) =
      (Outcome.cancelled, [], rest) := by
  rw [chunkLoop.eq_def, dif_pos hend]

lemma chunkLoop_step_nil (content : List Nat) (offset : Nat)
    (hend : ¬ content.length ≤ offset) :
    chunkLoop content offset [] =
      ((chunkLoop content
          (offset + ((content.drop offset).take CHUNK_SIZE).length) []).1,
       ((content.drop offset).take CHUNK_SIZE) ::
         (chunkLoop content
           (offset + ((content.drop offset).take CHUNK_SIZE).length) []).2.1,
       (chunkLoop content
         (offset + ((content.drop offset).take CHUNK_SIZE).length) []).2.2) := by
  rw [chunkLoop.eq_def, dif_neg hend]

lemma chunkLoop_step_ok (content : List Nat) (offset : Nat) (rest : List Ev)
    (hend : ¬ content.length ≤ offset) :
    chunkLoop content offset (Ev.ok :: rest) =
      ((chunkLoop content
          (offset + ((content.drop offset).take CHUNK_SIZE).length) rest).1,
       ((content.drop offset).take CHUNK_SIZE) ::
         (chunkLoop content
           (offset + ((content.drop offset).take CHUNK_SIZE).length) rest).2.1,
       (chunkLoop content
         (offset + ((content.drop offset).take CHUNK_SIZE).length) rest).2.2) := by
  rw [chunkLoop.eq_def, dif_neg hend]

lemma chunkLoop_step_pause (content : List Nat) (offset : Nat) (rest : List Ev)
    (hend : ¬ content.length ≤ offset) :
    chunkLoop content offset (Ev.pause :: rest) = chunkLoop content offset rest := by
  rw [chunkLoop.eq_def, dif_neg hend]

lemma chunkLoop_step_readErr (content : List Nat) (offset : Nat) (rest : List Ev)
    (hend : ¬ content.length ≤ offset) :
    chunkLoop content offset (Ev.readErr :: rest) =
      (Outcome.readError, [], rest) := by
  rw [chunkLoop.eq_def, dif_neg hend]

lemma chunkLoop_step_sendErr (content : List Nat) (offset : Nat) (rest : List Ev)
    (hend : ¬ content.length ≤ offset) :
    chunkLoop content offset (Ev.sendErr :: rest) =
      (Outcome.sendError, [], rest) := by
  rw [chunkLoop.eq_def, dif_neg hend]

lemma chunkLoop_step_cancel (content : List Nat) (offset : Nat) (rest : List Ev)
    (hend : ¬ content.length ≤ offset) :
    chunkLoop content offset (Ev.cancelNow :: rest) =
      (Outcome.cancelled, [], rest) := by
  rw [chunkLoop.eq_def, dif_neg hend]

/-- Advancing the offset past one slice, at the byte level. -/
lemma drop_take_drop (content : List Nat) (offset : Nat) :
    (content.drop offset).drop CHUNK_SIZE =
      content.drop (offset + ((content.drop offset).take CHUNK_SIZE).length) := by
  rcases le_or_lt CHUNK_SIZE (content.length - offset) with h | h
  · have hb : ((content.drop offset).take CHUNK_SIZE).length = CHUNK_SIZE := by
      simp only [List.length_take, List.length_drop]
      omega
    rw [hb, List.drop_drop]
  · have h1 : (content.drop offset).drop CHUNK_SIZE = [] :=
      List.drop_eq_nil_of_le (by simp only [List.length_drop]; omega)
    have h2 : content.drop
        (offset + ((content.drop offset).take CHUNK_SIZE).length) = [] :=
      List.drop_eq_nil_of_le
        (by simp only [List.length_take, List.length_drop]; omega)
    rw [h1, h2]

/-- One chunk of the remaining bytes, then the chunks of what follows. -/
lemma chunksOf_drop_step (content : List Nat) (offset : Nat)
    (hoff : offset < content.length) :
    chunksOf CHUNK_SIZE (content.drop offset) =
      ((content.drop offset).take CHUNK_SIZE) ::
        chunksOf CHUNK_SIZE
          (content.drop
            (offset + ((content.drop offset).take CHUNK_SIZE).length)) := by
  have hne : content.drop offset ≠ [] := by
    intro hc
    have := List.drop_eq_nil_iff.mp hc
    omega
  rw [← drop_take_drop content offset]
  obtain ⟨x, xs, hxs⟩ := List.exists_cons_of_ne_nil hne
  rw [hxs, chunksOf_cons CHUNK_SIZE CHUNK_SIZE_pos]

/-- With no interference the loop completes and sends exactly the chunks
of the remaining bytes. -/
lemma chunkLoop_nil (content : List Nat) (offset : Nat) :
    chunkLoop content offset [] =
      (Outcome.completed, chunksOf CHUNK_SIZE (content.drop offset), []) := by
  have H : ∀ n offset, content.length - offset ≤ n →
      chunkLoop content offset [] =
        (Outcome.completed, chunksOf CHUNK_SIZE (content.drop offset), []) := by
    intro n
    induction n with
    | zero =>
        intro offset hn
        have hend : content.length ≤ offset := by omega
        rw [chunkLoop_done content offset [] hend (by simp),
          List.drop_eq_nil_of_le hend, chunksOf_nil]
    | succ n ih =>
        intro offset hn
        by_cases hend : content.length ≤ offset
        · rw [chunkLoop_done content offset [] hend (by simp),
            List.drop_eq_nil_of_le hend, chunksOf_nil]
        · rw [chunkLoop_step_nil content offset hend]
          rw [ih (offset + ((content.drop offset).take CHUNK_SIZE).length)
            (by
              simp only [List.length_take, List.length_drop]
              have := CHUNK_SIZE_pos
              omega)]
          rw [chunksOf_drop_step content offset (by omega)]
  exact H (content.length - offset) offset le_rfl

/-- A schedule of only ok and pause events leaves the transfer unaffected:
the loop completes and sends exactly the chunks of the remaining bytes. -/
lemma chunkLoop_benign (content : List Nat) :
    ∀ n sched, (∀ e ∈ sched, e = Ev.ok ∨ e = Ev.pause) →
      ∀ offset, content.length - offset ≤ n →
        (chunkLoop content offset sched).1 = Outcome.completed ∧
        (chunkLoop content offset sched).2.1 =
          chunksOf CHUNK_SIZE (content.drop offset) := by
  intro n
  induction n with
  | zero =>
      intro sched hs offset hn
      have hend : content.length ≤ offset := by omega
      have hhd : sched.head? ≠ some Ev.cancelNow := by
        cases sched with
        | nil => simp
        | cons e rest =>
            rcases hs e (by simp) with he | he <;> subst he <;> simp
      rw [chunkLoop_done content offset sched hend hhd,
        List.drop_eq_nil_of_le hend, chunksOf_nil]
      exact ⟨rfl, rfl⟩
  | succ n ihn =>
      intro sched
      induction sched with
      | nil =>
          intro hs offset hn
          rw [chunkLoop_nil]
          exact ⟨rfl, rfl⟩
      | cons e rest ihs =>
          intro hs offset hn
          by_cases hend : content.length ≤ offset
          · have hhd : (e :: rest).head? ≠ some Ev.cancelNow := by
              rcases hs e (by simp) with he | he <;> subst he <;> simp
            rw [chunkLoop_done content offset (e :: rest) hend hhd,
              List.drop_eq_nil_of_le hend, chunksOf_nil]
            exact ⟨rfl, rfl⟩
          · rcases hs e (by simp) with he | he
            · subst he
              rw [chunkLoop_step_ok content offset rest hend]
              have harec := ihn rest (fun x hx => hs x (by simp [hx]))
                (offset + ((content.drop offset).take CHUNK_SIZE).length)
                (by
                  simp only [List.length_take, List.length_drop]
                  have := CHUNK_SIZE_pos
                  omega)
              refine ⟨harec.1, ?_⟩
              rw [chunksOf_drop_step content offset (by omega)]
              exact congrArg _ harec.2
            · subst he
              rw [chunkLoop_step_pause content offset rest hend]
              exact ihs (fun x hx => hs x (by simp [hx])) offset hn

/-- Interruption after k clean chunks: the loop stops with the matching
outcome, having sent exactly the first k chunks. -/
lemma chunkLoop_err (content : List Nat) (e : Ev) (tail : List Ev)
    (he : e = Ev.readErr ∨ e = Ev.sendErr ∨ e = Ev.cancelNow) :
    ∀ k offset, offset + k * CHUNK_SIZE < content.length →
      chunkLoop content offset (List.replicate k Ev.ok ++ e :: tail) =
        (errOutcome e, (chunksOf CHUNK_SIZE (content.drop offset)).take k,
          tail) := by
  intro k
  induction k with
  | zero =>
      intro offset hoff
      simp only [Nat.zero_mul, Nat.add_zero] at hoff
      have hend : ¬ content.length ≤ offset := by omega
      simp only [List.replicate_zero, List.nil_append, List.take_zero]
      rcases he with he | he | he <;> subst he
      · rw [chunkLoop_step_readErr content offset tail hend]
        rfl
      · rw [chunkLoop_step_sendErr content offset tail hend]
        rfl
      · rw [chunkLoop_step_cancel content offset tail hend]
        rfl
  | succ k ih =>
      intro offset hoff
      rw [Nat.succ_mul] at hoff
      have hend : ¬ content.length ≤ offset := by omega
      rw [show List.replicate (k + 1) Ev.ok ++ e :: tail =
            Ev.ok :: (List.replicate k Ev.ok ++ e :: tail) by
          simp [List.replicate_succ]]
      rw [chunkLoop_step_ok content offset _ hend]
      have hbl : ((content.drop offset).take CHUNK_SIZE).length = CHUNK_SIZE := by
        simp only [List.length_take, List.length_drop]
        omega
      rw [hbl]
      rw [ih (offset + CHUNK_SIZE) (by omega)]
      rw [chunksOf_drop_step content offset (by omega), hbl]
      rw [List.take_succ_cons]

/-- A run of the loop that ends in the completed outcome has sent the whole
remainder of the file: the chunk bytes sum to size minus offset. -/
lemma chunkLoop_completed_total (content : List Nat) :
    ∀ n sched offset, content.length - offset ≤ n →
      (chunkLoop content offset sched).1 = Outcome.completed →
      totalLen (chunkLoop content offset sched).2.1 =
        content.length - offset := by
  intro n
  induction n with
  | zero =>
      intro sched offset hn hc
      have hend : content.length ≤ offset := by omega
      cases sched with
      | nil =>
          rw [chunkLoop_done content offset [] hend (by simp)]
          simp [totalLen_nil]
          omega
      | cons e rest =>
          cases e with
          | cancelNow =>
              rw [chunkLoop_done_cancel content offset rest hend] at hc
              simp at hc
          | ok =>
              rw [chunkLoop_done content offset _ hend (by simp)]
              simp [totalLen_nil]
              omega
          | pause =>
              rw [chunkLoop_done content offset _ hend (by simp)]
              simp [totalLen_nil]
              omega
          | readErr =>
              rw [chunkLoop_done content offset _ hend (by simp)]
              simp [totalLen_nil]
              omega
          | sendErr =>
              rw [chunkLoop_done content offset _ hend (by simp)]
              simp [totalLen_nil]
              omega
  | succ n ihn =>
      intro sched
      induction sched with
      | nil =>
          intro offset hn _
          rw [chunkLoop_nil]
          simp only []
          rw [chunksOf_totalLen CHUNK_SIZE CHUNK_SIZE_pos]
          simp
      | cons e rest ihs =>
          intro offset hn hc
          by_cases hend : content.length ≤ offset
          · cases e with
            | cancelNow =>
                rw [chunkLoop_done_cancel content offset rest hend] at hc
                simp at hc
            | ok =>
                rw [chunkLoop_done content offset _ hend (by simp)]
                simp [totalLen_nil]
                omega
            | pause =>
                rw [chunkLoop_done content offset _ hend (by simp)]
                simp [totalLen_nil]
                omega
            | readErr =>
                rw [chunkLoop_done content offset _ hend (by simp)]
                simp [totalLen_nil]
                omega
            | sendErr =>
                rw [chunkLoop_done content offset _ hend (by simp)]
                simp [totalLen_nil]
                omega
          · cases e with
            | ok =>
                rw [chunkLoop_step_ok content offset rest hend] at hc ⊢
                have harec := ihn rest
                  (offset + ((content.drop offset).take CHUNK_SIZE).length)
                  (by
                    simp only [List.length_take, List.length_drop]
                    have := CHUNK_SIZE_pos
                    omega)
                  hc
                simp only [totalLen_cons]
                rw [harec]
                simp only [List.length_take, List.length_drop]
                omega
            | pause =>
                rw [chunkLoop_step_pause content offset rest hend] at hc ⊢
                exact ihs offset hn hc
            | readErr =>
                rw [chunkLoop_step_readErr content offset rest hend] at hc
                simp at hc
            | sendErr =>
                rw [chunkLoop_step_sendErr content offset rest hend] at hc
                simp at hc
            | cancelNow =>
                rw [chunkLoop_step_cancel content offset rest hend] at hc
                simp at hc

/-- Nonempty files produce a nonempty chunk list. -/
lemma chunksOf_ne_nil_of_ne_nil (l : List Nat) (hl : l ≠ []) :
    chunksOf CHUNK_SIZE l ≠ [] := by
  obtain ⟨x, xs, hxs⟩ := List.exists_cons_of_ne_nil hl
  rw [hxs, chunksOf_cons CHUNK_SIZE CHUNK_SIZE_pos]
  simp

/-- A proper prefix of the chunk list holds fewer bytes than the file. -/
lemma take_chunks_lt (l : List Nat) (j : Nat)
    (hj : j < (chunksOf CHUNK_SIZE l).length) :
    totalLen ((chunksOf CHUNK_SIZE l).take j) < l.length := by
  rw [chunksOf_length CHUNK_SIZE CHUNK_SIZE_pos] at hj
  have hmul : j * CHUNK_SIZE < l.length := by
    by_contra hcon
    push_neg at hcon
    have h4 : l.length + CHUNK_SIZE - 1 < (j + 1) * CHUNK_SIZE := by
      rw [Nat.succ_mul]
      have := CHUNK_SIZE_pos
      omega
    have h5 : (l.length + CHUNK_SIZE - 1) / CHUNK_SIZE < j + 1 :=
      (Nat.div_lt_iff_lt_mul CHUNK_SIZE_pos).mpr h4
    omega
  rw [← totalLen_flatten, chunksOf_take_flatten CHUNK_SIZE CHUNK_SIZE_pos]
  simp only [List.length_take]
  omega

/-- C9: pausing and resuming any number of times during a single file's
transfer only suspends the chunk loop locally: the loop still completes,
resuming from the exact offset reached, and the sequence of chunk payloads
delivered equals that of an uninterrupted transfer of the same file (no
re-sent bytes, no gap). -/
theorem pause_resume_equiv (f : List Nat) (sched : List Ev)
    (hs : ∀ e ∈ sched, e = Ev.ok ∨ e = Ev.pause) :
    (chunkLoop f 0 sched).1 = Outcome.completed ∧
    (chunkLoop f 0 sched).2.1 = (chunkLoop f 0 []).2.1 := by
  have h1 := chunkLoop_benign f (f.length - 0) sched hs 0 le_rfl
  have h2 : (chunkLoop f 0 []).2.1 = chunksOf CHUNK_SIZE (f.drop 0) := by
    rw [chunkLoop_nil]
  exact ⟨h1.1, by rw [h1.2, h2]⟩

/-- Witness for pause_resume_equiv: two pauses around a clean chunk. -/
theorem pause_resume_equiv_witness :
    (chunkLoop [1, 2, 3] 0 [Ev.pause, Ev.ok, Ev.pause]).1 = Outcome.completed ∧
    (chunkLoop [1, 2, 3] 0 [Ev.pause, Ev.ok, Ev.pause]).2.1 =
      (chunkLoop [1, 2, 3] 0 []).2.1 :=
  pause_resume_equiv [1, 2, 3] [Ev.pause, Ev.ok, Ev.pause] (by decide)

/-- C1: round-trip identity — the chunks produced by an uninterrupted run
of the send loop, delivered in order to an idle receiver opened with the
file's declared size, assemble into a single artifact byte-identical to
the source file; this holds for every file, covering 0 bytes, 1 byte,
exactly one chunk, and chunk size + 1 bytes. -/
theorem roundtrip_identity (f : List Nat) (m : RxMeta) (hm : m.size = f.length) :
    runRx (Msg.meta m :: ((chunkLoop f 0 []).2.1.map Msg.binary ++ [Msg.done]))
        rxInit =
      ⟨none, [], 0, [⟨m.name, m.size, m.mimeType, f⟩]⟩ := by
  have hchunks : (chunkLoop f 0 []).2.1 = chunksOf CHUNK_SIZE f := by
    rw [chunkLoop_nil]
    rfl
  rw [hchunks, runRx_cons,
    show onData (Msg.meta m) rxInit = ⟨some m, [], 0, []⟩ from rfl,
    runRx_append]
  rcases eq_or_ne f [] with hf | hf
  · subst hf
    rw [chunksOf_nil]
    rw [show (([] : List (List Nat)).map Msg.binary) = [] from rfl, runRx_nil]
    rw [runRx_cons, runRx_nil]
    have hms : m.size = 0 := by simpa using hm
    show finalizeRx ⟨some m, [], 0, []⟩ = _
    rw [show finalizeRx ⟨some m, [], 0, []⟩ =
        ⟨none, [], 0, [⟨m.name, m.size, m.mimeType, []⟩]⟩ from rfl]
  · rw [runRx_fill m (chunksOf CHUNK_SIZE f) [] 0 []
      (chunksOf_ne_nil_of_ne_nil f hf)
      (by
        intro j hj hjlen
        have := take_chunks_lt f j hjlen
        omega)
      (by
        rw [chunksOf_totalLen CHUNK_SIZE CHUNK_SIZE_pos]
        omega)]
    rw [runRx_cons, runRx_nil]
    simp only [List.nil_append]
    have hdone : ∀ arts : List Artifact,
        onData Msg.done (⟨none, [], 0, arts⟩ : RxState) = ⟨none, [], 0, arts⟩ :=
      fun _ => rfl
    rw [hdone, chunksOf_join CHUNK_SIZE CHUNK_SIZE_pos]

/-- Witness for roundtrip_identity at a 3-byte file. -/
theorem roundtrip_identity_witness :
    runRx (Msg.meta ⟨"w", 3, "t"⟩ ::
        ((chunkLoop [1, 2, 3] 0 []).2.1.map Msg.binary ++ [Msg.done])) rxInit =
      ⟨none, [], 0, [⟨"w", 3, "t", [1, 2, 3]⟩]⟩ :=
  roundtrip_identity [1, 2, 3] ⟨"w", 3, "t"⟩ rfl

/-- C2: chunk coverage — for an uninterrupted send of a file of size S with
chunk size C = CHUNK_SIZE, the binary chunk lengths produced by the send
loop sum to exactly S, the number of chunks is ⌈S/C⌉, and for S > 0 the
last chunk's length is S mod C (or C when S mod C = 0). -/
theorem chunk_coverage (f : List Nat) :
    (((chunkLoop f 0 []).2.1.map List.length).sum = f.length) ∧
    ((chunkLoop f 0 []).2.1.length =
      (f.length + CHUNK_SIZE - 1) / CHUNK_SIZE) ∧
    (f ≠ [] →
      ((chunkLoop f 0 []).2.1.map List.length).getLast? =
        some (if f.length % CHUNK_SIZE = 0 then CHUNK_SIZE
              else f.length % CHUNK_SIZE)) := by
  have hchunks : (chunkLoop f 0 []).2.1 = chunksOf CHUNK_SIZE f := by
    rw [chunkLoop_nil]
    rfl
  rw [hchunks]
  refine ⟨?_, ?_, ?_⟩
  · exact chunksOf_totalLen CHUNK_SIZE CHUNK_SIZE_pos f
  · exact chunksOf_length CHUNK_SIZE CHUNK_SIZE_pos f
  · intro hf
    exact chunksOf_getLast_length CHUNK_SIZE CHUNK_SIZE_pos f hf

/-- Witness for chunk_coverage: the last-chunk clause at a 2-byte file. -/
theorem chunk_coverage_witness :
    ((chunkLoop [4, 5] 0 []).2.1.map List.length).getLast? = some 2 := by
  have h := (chunk_coverage [4, 5]).2.2 (by decide)
  rw [h]
  decide

lemma countActive_nil : countActive [] = 0 := rfl

lemma countActive_cons (a : Status) (rest : List Status) :
    countActive (a :: rest) =
      countActive rest + (if a = Status.active then 1 else 0) := by
  by_cases h : a = Status.active <;> simp [countActive, List.countP_cons, h]

lemma countActive_replicate_pending (n : Nat) :
    countActive (List.replicate n Status.pending) = 0 := by
  induction n with
  | zero => rfl
  | succ n ih =>
      rw [List.replicate_succ, countActive_cons, ih]
      simp

lemma countActive_set_le (metas : List Status) (i : Nat) (st : Status) :
    countActive (metas.set i st) ≤ countActive metas + 1 := by
  induction metas generalizing i with
  | nil => simp [countActive]
  | cons a rest ih =>
      cases i with
      | zero =>
          simp only [List.set_cons_zero, countActive_cons]
          split_ifs <;> omega
      | succ i =>
          simp only [List.set_cons_succ, countActive_cons]
          have := ih i
          omega

lemma countActive_set_zero (metas : List Status) (i : Nat) (st : Status)
    (hst : st ≠ Status.active) (h0 : countActive metas = 0) :
    countActive (metas.set i st) = 0 := by
  induction metas generalizing i with
  | nil => simpa [countActive] using h0
  | cons a rest ih =>
      rw [countActive_cons] at h0
      cases i with
      | zero =>
          rw [List.set_cons_zero, countActive_cons]
          simp only [hst, if_false]
          omega
      | succ i =>
          rw [List.set_cons_succ, countActive_cons]
          rw [ih i (by omega)]
          omega

lemma countActive_set_active (metas : List Status) (i : Nat)
    (h0 : countActive metas = 0) :
    countActive (metas.set i Status.active) ≤ 1 := by
  have := countActive_set_le metas i Status.active
  omega

lemma getD_set_ne {α : Type} (l : List α) (i j : Nat) (st d : α) (hij : i ≠ j) :
    (l.set i st).getD j d = l.getD j d := by
  simp [List.getD_eq_getElem?_getD, List.getElem?_set_ne hij]

lemma getD_set_self {α : Type} (l : List α) (i : Nat) (st d : α)
    (hi : i < l.length) :
    (l.set i st).getD i d = st := by
  simp [List.getD_eq_getElem?_getD, List.getElem?_set_self hi]

lemma getD_replicate_lt {α : Type} (n i : Nat) (a d : α) (h : i < n) :
    (List.replicate n a).getD i d = a := by
  simp [List.getD_eq_getElem?_getD, List.getElem?_replicate, h]

lemma sendLoop_stop (files : List (List Nat)) (metas : List Status)
    (chunksPer : List (List (List Nat))) (msgs : List (Nat × Ctl))
    (trace : List (List Status)) (txIdx : Nat) (cancelled : Bool)
    (sched : List Ev) (h : files.length ≤ txIdx ∨ cancelled = true) :
    sendLoop files metas chunksPer msgs trace txIdx cancelled sched =
      ⟨metas, chunksPer, msgs, trace⟩ := by
  rw [sendLoop.eq_def, dif_pos h]

lemma sendLoop_skip (files : List (List Nat)) (metas : List Status)
    (chunksPer : List (List (List Nat))) (msgs : List (Nat × Ctl))
    (trace : List (List Status)) (txIdx : Nat) (sched : List Ev)
    (h1 : txIdx < files.length)
    (h3 : metas.getD txIdx Status.pending ≠ Status.pending) :
    sendLoop files metas chunksPer msgs trace txIdx false sched =
      sendLoop files metas chunksPer msgs trace (txIdx + 1) false sched := by
  rw [sendLoop.eq_def, dif_neg (by simp only [Bool.false_eq_true, or_false]; omega),
    if_pos h3]

lemma sendLoop_completed (files : List (List Nat)) (metas : List Status)
    (chunksPer : List (List (List Nat))) (msgs : List (Nat × Ctl))
    (trace : List (List Status)) (txIdx : Nat) (sched : List Ev)
    (h1 : txIdx < files.length)
    (h3 : metas.getD txIdx Status.pending = Status.pending)
    (h4 : (chunkLoop (files.getD txIdx []) 0 sched).1 = Outcome.completed) :
    sendLoop files metas chunksPer msgs trace txIdx false sched =
      sendLoop files ((metas.set txIdx Status.active).set txIdx Status.done)
        (chunksPer.set txIdx (chunkLoop (files.getD txIdx []) 0 sched).2.1)
        ((msgs ++ [(txIdx, Ctl.meta)]) ++ [(txIdx, Ctl.done)])
        ((trace ++ [metas.set txIdx Status.active]) ++
          [(metas.set txIdx Status.active).set txIdx Status.done])
        (txIdx + 1) false (chunkLoop (files.getD txIdx []) 0 sched).2.2 := by
  rw [sendLoop.eq_def, dif_neg (by simp only [Bool.false_eq_true, or_false]; omega),
    if_neg (fun hcon => hcon h3)]
  simp only [h4]

lemma sendLoop_readErr (files : List (List Nat)) (metas : List Status)
    (chunksPer : List (List (List Nat))) (msgs : List (Nat × Ctl))
    (trace : List (List Status)) (txIdx : Nat) (sched : List Ev)
    (h1 : txIdx < files.length)
    (h3 : metas.getD txIdx Status.pending = Status.pending)
    (h4 : (chunkLoop (files.getD txIdx []) 0 sched).1 = Outcome.readError) :
    sendLoop files metas chunksPer msgs trace txIdx false sched =
      sendLoop files ((metas.set txIdx Status.active).set txIdx Status.error)
        (chunksPer.set txIdx (chunkLoop (files.getD txIdx []) 0 sched).2.1)
        (msgs ++ [(txIdx, Ctl.meta)])
        ((trace ++ [metas.set txIdx Status.active]) ++
          [(metas.set txIdx Status.active).set txIdx Status.error])
        (txIdx + 1) false (chunkLoop (files.getD txIdx []) 0 sched).2.2 := by
  rw [sendLoop.eq_def, dif_neg (by simp only [Bool.false_eq_true, or_false]; omega),
    if_neg (fun hcon => hcon h3)]
  simp only [h4]

lemma sendLoop_sendErr (files : List (List Nat)) (metas : List Status)
    (chunksPer : List (List (List Nat))) (msgs : List (Nat × Ctl))
    (trace : List (List Status)) (txIdx : Nat) (sched : List Ev)
    (h1 : txIdx < files.length)
    (h3 : metas.getD txIdx Status.pending = Status.pending)
    (h4 : (chunkLoop (files.getD txIdx []) 0 sched).1 = Outcome.sendError) :
    sendLoop files metas chunksPer msgs trace txIdx false sched =
      ⟨(metas.set txIdx Status.active).set txIdx Status.error,
       chunksPer.set txIdx (chunkLoop (files.getD txIdx []) 0 sched).2.1,
       msgs ++ [(txIdx, Ctl.meta)],
       (trace ++ [metas.set txIdx Status.active]) ++
         [(metas.set txIdx Status.active).set txIdx Status.error]⟩ := by
  rw [sendLoop.eq_def, dif_neg (by simp only [Bool.false_eq_true, or_false]; omega),
    if_neg (fun hcon => hcon h3)]
  simp only [h4]

lemma sendLoop_cancelled (files : List (List Nat)) (metas : List Status)
    (chunksPer : List (List (List Nat))) (msgs : List (Nat × Ctl))
    (trace : List (List Status)) (txIdx : Nat) (sched : List Ev)
    (h1 : txIdx < files.length)
    (h3 : metas.getD txIdx Status.pending = Status.pending)
    (h4 : (chunkLoop (files.getD txIdx []) 0 sched).1 = Outcome.cancelled) :
    sendLoop files metas chunksPer msgs trace txIdx false sched =
      ⟨(metas.set txIdx Status.active).set txIdx Status.error,
       chunksPer.set txIdx (chunkLoop (files.getD txIdx []) 0 sched).2.1,
       (msgs ++ [(txIdx, Ctl.meta)]) ++ [(txIdx, Ctl.cancel)],
       (trace ++ [metas.set txIdx Status.active]) ++
         [(metas.set txIdx Status.active).set txIdx Status.error]⟩ := by
  rw [sendLoop.eq_def, dif_neg (by simp only [Bool.false_eq_true, or_false]; omega),
    if_neg (fun hcon => hcon h3)]
  simp only [h4]

/-- Master invariant of the queue engine: starting from a state with no
active entry, every status snapshot ever taken has at most one active
entry, the run ends with no active entry, non-pending entries are never
touched, and every entry that goes from pending to done had exactly its
file's bytes sent as chunks. -/
lemma sendLoop_spec (files : List (List Nat)) :
    ∀ fuel txIdx metas chunksPer msgs trace cancelled sched r,
      files.length - txIdx ≤ fuel →
      metas.length = files.length →
      chunksPer.length = files.length →
      countActive metas = 0 →
      (∀ ms ∈ trace, countActive ms ≤ 1) →
      r = sendLoop files metas chunksPer msgs trace txIdx cancelled sched →
      (r.metas.length = files.length ∧
       r.chunksPer.length = files.length ∧
       countActive r.metas = 0 ∧
       (∀ ms ∈ r.trace, countActive ms ≤ 1) ∧
       (∀ i, i < files.length → metas.getD i Status.pending ≠ Status.pending →
         r.metas.getD i Status.pending = metas.getD i Status.pending ∧
         r.chunksPer.getD i [] = chunksPer.getD i []) ∧
       (∀ i, i < files.length → r.metas.getD i Status.pending = Status.done →
         metas.getD i Status.pending = Status.done ∨
         totalLen (r.chunksPer.getD i []) = (files.getD i []).length)) := by
  intro fuel
  induction fuel with
  | zero =>
      intro txIdx metas chunksPer msgs trace cancelled sched r
        hfuel hm hc h0 htr hr
      have hstop : files.length ≤ txIdx := by omega
      rw [sendLoop_stop files metas chunksPer msgs trace txIdx cancelled sched
        (Or.inl hstop)] at hr
      subst hr
      exact ⟨hm, hc, h0, htr, fun i hi hne => ⟨rfl, rfl⟩,
        fun i hi hdone => Or.inl hdone⟩
  | succ fuel ih =>
      intro txIdx metas chunksPer msgs trace cancelled sched r
        hfuel hm hc h0 htr hr
      by_cases hstop : files.length ≤ txIdx ∨ cancelled = true
      · rw [sendLoop_stop files metas chunksPer msgs trace txIdx cancelled sched
          hstop] at hr
        subst hr
        exact ⟨hm, hc, h0, htr, fun i hi hne => ⟨rfl, rfl⟩,
          fun i hi hdone => Or.inl hdone⟩
      · push_neg at hstop
        have hlt2 : txIdx < files.length := by omega
        have hcf2 : cancelled = false := by
          cases cancelled
          · rfl
          · exact absurd rfl hstop.2
        subst hcf2
        by_cases hskip : metas.getD txIdx Status.pending = Status.pending
        · have hmlt : txIdx < metas.length := by rw [hm]; exact hlt2
          have hclt : txIdx < chunksPer.length := by rw [hc]; exact hlt2
          cases houtcome : (chunkLoop (files.getD txIdx []) 0 sched).1 with
          | completed =>
              rw [sendLoop_completed files metas chunksPer msgs trace txIdx sched
                hlt2 hskip houtcome] at hr
              simp only [List.set_set] at hr
              obtain ⟨g1, g2, g3, g4, g5, g6⟩ :=
                ih (txIdx + 1) (metas.set txIdx Status.done)
                  (chunksPer.set txIdx
                    (chunkLoop (files.getD txIdx []) 0 sched).2.1)
                  ((msgs ++ [(txIdx, Ctl.meta)]) ++ [(txIdx, Ctl.done)])
                  ((trace ++ [metas.set txIdx Status.active]) ++
                    [metas.set txIdx Status.done])
                  false (chunkLoop (files.getD txIdx []) 0 sched).2.2 r
                  (by omega)
                  (by rw [List.length_set]; exact hm)
                  (by rw [List.length_set]; exact hc)
                  (countActive_set_zero metas txIdx Status.done (by simp) h0)
                  (by
                    intro ms hms
                    rcases List.mem_append.mp hms with hms1 | hms1
                    · rcases List.mem_append.mp hms1 with hms2 | hms2
                      · exact htr ms hms2
                      · simp only [List.mem_singleton] at hms2
                        subst hms2
                        exact countActive_set_active metas txIdx h0
                    · simp only [List.mem_singleton] at hms1
                      subst hms1
                      rw [countActive_set_zero metas txIdx Status.done
                        (by simp) h0]
                      omega)
                  hr
              refine ⟨g1, g2, g3, g4, ?_, ?_⟩
              · intro i hi hne
                have hineq : txIdx ≠ i := by
                  intro hcon
                  subst hcon
                  exact hne hskip
                have h5 := g5 i hi
                  (by rw [getD_set_ne metas txIdx i _ _ hineq]; exact hne)
                rw [getD_set_ne metas txIdx i _ _ hineq] at h5
                rw [getD_set_ne chunksPer txIdx i _ _ hineq] at h5
                exact h5
              · intro i hi hdone
                by_cases hii : txIdx = i
                · subst hii
                  right
                  have hset : (metas.set txIdx Status.done).getD txIdx
                      Status.pending = Status.done :=
                    getD_set_self metas txIdx _ _ hmlt
                  have h5 := g5 txIdx hi (by rw [hset]; simp)
                  rw [h5.2, getD_set_self chunksPer txIdx _ _ hclt]
                  have htot := chunkLoop_completed_total (files.getD txIdx [])
                    (files.getD txIdx []).length sched 0 (by omega) houtcome
                  rw [htot]
                  omega
                · rcases g6 i hi hdone with h6 | h6
                  · rw [getD_set_ne metas txIdx i _ _ hii] at h6
                    exact Or.inl h6
                  · exact Or.inr h6
          | readError =>
              rw [sendLoop_readErr files metas chunksPer msgs trace txIdx sched
                hlt2 hskip houtcome] at hr
              simp only [List.set_set] at hr
              obtain ⟨g1, g2, g3, g4, g5, g6⟩ :=
                ih (txIdx + 1) (metas.set txIdx Status.error)
                  (chunksPer.set txIdx
                    (chunkLoop (files.getD txIdx []) 0 sched).2.1)
                  (msgs ++ [(txIdx, Ctl.meta)])
                  ((trace ++ [metas.set txIdx Status.active]) ++
                    [metas.set txIdx Status.error])
                  false (chunkLoop (files.getD txIdx []) 0 sched).2.2 r
                  (by omega)
                  (by rw [List.length_set]; exact hm)
                  (by rw [List.length_set]; exact hc)
                  (countActive_set_zero metas txIdx Status.error (by simp) h0)
                  (by
                    intro ms hms
                    rcases List.mem_append.mp hms with hms1 | hms1
                    · rcases List.mem_append.mp hms1 with hms2 | hms2
                      · exact htr ms hms2
                      · simp only [List.mem_singleton] at hms2
                        subst hms2
                        exact countActive_set_active metas txIdx h0
                    · simp only [List.mem_singleton] at hms1
                      subst hms1
                      rw [countActive_set_zero metas txIdx Status.error
                        (by simp) h0]
                      omega)
                  hr
              refine ⟨g1, g2, g3, g4, ?_, ?_⟩
              · intro i hi hne
                have hineq : txIdx ≠ i := by
                  intro hcon
                  subst hcon
                  exact hne hskip
                have h5 := g5 i hi
                  (by rw [getD_set_ne metas txIdx i _ _ hineq]; exact hne)
                rw [getD_set_ne metas txIdx i _ _ hineq] at h5
                rw [getD_set_ne chunksPer txIdx i _ _ hineq] at h5
                exact h5
              · intro i hi hdone
                by_cases hii : txIdx = i
                · subst hii
                  have hset : (metas.set txIdx Status.error).getD txIdx
                      Status.pending = Status.error :=
                    getD_set_self metas txIdx _ _ hmlt
                  have h5 := g5 txIdx hi (by rw [hset]; simp)
                  rw [h5.1, hset] at hdone
                  simp at hdone
                · rcases g6 i hi hdone with h6 | h6
                  · rw [getD_set_ne metas txIdx i _ _ hii] at h6
                    exact Or.inl h6
                  · exact Or.inr h6
          | sendError =>
              rw [sendLoop_sendErr files metas chunksPer msgs trace txIdx sched
                hlt2 hskip houtcome] at hr
              simp only [List.set_set] at hr
              subst hr
              refine ⟨?_, ?_, ?_, ?_, ?_, ?_⟩
              · show (metas.set txIdx Status.error).length = files.length
                rw [List.length_set]
                exact hm
              · show (chunksPer.set txIdx _).length = files.length
                rw [List.length_set]
                exact hc
              · exact countActive_set_zero metas txIdx Status.error (by simp) h0
              · intro ms hms
                rcases List.mem_append.mp hms with hms1 | hms1
                · rcases List.mem_append.mp hms1 with hms2 | hms2
                  · exact htr ms hms2
                  · simp only [List.mem_singleton] at hms2
                    subst hms2
                    exact countActive_set_active metas txIdx h0
                · simp only [List.mem_singleton] at hms1
                  subst hms1
                  rw [countActive_set_zero metas txIdx Status.error (by simp) h0]
                  omega
              · intro i hi hne
                have hineq : txIdx ≠ i := by
                  intro hcon
                  subst hcon
                  exact hne hskip
                exact ⟨getD_set_ne metas txIdx i _ _ hineq,
                  getD_set_ne chunksPer txIdx i _ _ hineq⟩
              · intro i hi hdone
                by_cases hii : txIdx = i
                · subst hii
                  rw [show ((⟨metas.set txIdx Status.error, _, _, _⟩ :
                      RunResult)).metas = metas.set txIdx Status.error from rfl,
                    getD_set_self metas txIdx _ _ hmlt] at hdone
                  simp at hdone
                · left
                  rw [show ((⟨metas.set txIdx Status.error, _, _, _⟩ :
                      RunResult)).metas = metas.set txIdx Status.error from rfl,
                    getD_set_ne metas txIdx i _ _ hii] at hdone
                  exact hdone
          | cancelled =>
              rw [sendLoop_cancelled files metas chunksPer msgs trace txIdx sched
                hlt2 hskip houtcome] at hr
              simp only [List.set_set] at hr
              subst hr
              refine ⟨?_, ?_, ?_, ?_, ?_, ?_⟩
              · show (metas.set txIdx Status.error).length = files.length
                rw [List.length_set]
                exact hm
              · show (chunksPer.set txIdx _).length = files.length
                rw [List.length_set]
                exact hc
              · exact countActive_set_zero metas txIdx Status.error (by simp) h0
              · intro ms hms
                rcases List.mem_append.mp hms with hms1 | hms1
                · rcases List.mem_append.mp hms1 with hms2 | hms2
                  · exact htr ms hms2
                  · simp only [List.mem_singleton] at hms2
                    subst hms2
                    exact countActive_set_active metas txIdx h0
                · simp only [List.mem_singleton] at hms1
                  subst hms1
                  rw [countActive_set_zero metas txIdx Status.error (by simp) h0]
                  omega
              · intro i hi hne
                have hineq : txIdx ≠ i := by
                  intro hcon
                  subst hcon
                  exact hne hskip
                exact ⟨getD_set_ne metas txIdx i _ _ hineq,
                  getD_set_ne chunksPer txIdx i _ _ hineq⟩
              · intro i hi hdone
                by_cases hii : txIdx = i
                · subst hii
                  rw [show ((⟨metas.set txIdx Status.error, _, _, _⟩ :
                      RunResult)).metas = metas.set txIdx Status.error from rfl,
                    getD_set_self metas txIdx _ _ hmlt] at hdone
                  simp at hdone
                · left
                  rw [show ((⟨metas.set txIdx Status.error, _, _, _⟩ :
                      RunResult)).metas = metas.set txIdx Status.error from rfl,
                    getD_set_ne metas txIdx i _ _ hii] at hdone
                  exact hdone
        · rw [sendLoop_skip files metas chunksPer msgs trace txIdx sched
            hlt2 hskip] at hr
          exact ih (txIdx + 1) metas chunksPer msgs trace false sched r
            (by omega) hm hc h0 htr hr

/-- C4 (amended): sequential queue invariant — over any run of the engine
on a fresh queue, no two entries are ever simultaneously active (every
status snapshot has at most one active entry), and every file that reaches
done had exactly its size in bytes sent as binary chunks; files that end
in error or cancellation may have had a partial prefix of their bytes
sent, so the total bytes sent can exceed the sum of done-file sizes. -/
theorem sequential_queue_invariant (files : List (List Nat)) (sched : List Ev) :
    (∀ ms ∈ (runEngine files sched).trace, countActive ms ≤ 1) ∧
    (∀ i, i < files.length →
      (runEngine files sched).metas.getD i Status.pending = Status.done →
      totalLen ((runEngine files sched).chunksPer.getD i []) =
        (files.getD i []).length) := by
  obtain ⟨g1, g2, g3, g4, g5, g6⟩ := sendLoop_spec files files.length 0
    (List.replicate files.length Status.pending)
    (List.replicate files.length []) []
    [List.replicate files.length Status.pending] false sched
    (runEngine files sched)
    (by omega)
    (by rw [List.length_replicate])
    (by rw [List.length_replicate])
    (countActive_replicate_pending files.length)
    (by
      intro ms hms
      simp only [List.mem_singleton] at hms
      subst hms
      rw [countActive_replicate_pending]
      omega)
    rfl
  refine ⟨g4, ?_⟩
  intro i hi hdone
  rcases g6 i hi hdone with h | h
  · rw [getD_replicate_lt files.length i Status.pending Status.pending hi] at h
    simp at h
  · exact h

/-- Witness for sequential_queue_invariant: a clean one-file run where the
file reaches done having sent exactly its 2 bytes. -/
theorem sequential_queue_invariant_witness :
    totalLen ((runEngine [[1, 2]] []).chunksPer.getD 0 []) =
      (([[1, 2]] : List (List Nat)).getD 0 []).length := by
  apply (sequential_queue_invariant [[1, 2]] []).2 0 (by decide)
  rw [show runEngine [[1, 2]] [] = sendLoop [[1, 2]]
      (List.replicate 1 Status.pending) (List.replicate 1 [])
      [] [List.replicate 1 Status.pending] 0 false [] from rfl]
  rw [sendLoop_completed [[1, 2]] (List.replicate 1 Status.pending)
    (List.replicate 1 []) [] [List.replicate 1 Status.pending] 0 []
    (by decide) (by decide) (by rw [chunkLoop_nil])]
  rw [sendLoop_stop _ _ _ _ _ _ _ _ (Or.inl (by decide))]
  decide

lemma totalSent_single (m : List Status) (x : List (List Nat))
    (ms : List (Nat × Ctl)) (tr : List (List Status)) :
    totalSent ⟨m, [x], ms, tr⟩ = totalLen x := by
  show (List.map totalLen [x]).sum = totalLen x
  rw [List.map_cons, List.map_nil, List.sum_cons, List.sum_nil]
  omega

lemma doneBytes_error_single (f : List Nat) :
    doneBytes [f] [Status.error] = 0 := rfl

/-- C4 counterexample: in the run where the only queued file (65537 bytes,
two chunks) suffers a read error before its second chunk, 65536 bytes were
sent as binary chunks but no file reached done, so the total bytes sent
differ from the sum of the sizes of the files that reached done. -/
theorem queue_accounting_cx :
    totalSent (runEngine [List.replicate 65537 0] [Ev.ok, Ev.readErr]) ≠
      doneBytes [List.replicate 65537 0]
        (runEngine [List.replicate 65537 0] [Ev.ok, Ev.readErr]).metas := by
  have hloop : chunkLoop (List.replicate 65537 (0 : Nat)) 0
      [Ev.ok, Ev.readErr] =
      (Outcome.readError,
        (chunksOf CHUNK_SIZE (List.replicate 65537 (0 : Nat))).take 1, []) := by
    have h := chunkLoop_err (List.replicate 65537 (0 : Nat)) Ev.readErr []
      (Or.inl rfl) 1 0 (by rw [List.length_replicate]; decide)
    rw [show List.replicate 1 Ev.ok ++ Ev.readErr :: ([] : List Ev) =
        [Ev.ok, Ev.readErr] from rfl] at h
    rw [show (List.replicate 65537 (0 : Nat)).drop 0 =
        List.replicate 65537 (0 : Nat) from rfl] at h
    rw [show errOutcome Ev.readErr = Outcome.readError from rfl] at h
    exact h
  have hfinal : runEngine [List.replicate 65537 (0 : Nat)] [Ev.ok, Ev.readErr] =
      ⟨[Status.error],
       [(chunksOf CHUNK_SIZE (List.replicate 65537 (0 : Nat))).take 1],
       [(0, Ctl.meta)],
       [[Status.pending], [Status.active], [Status.error]]⟩ := by
    rw [show runEngine [List.replicate 65537 (0 : Nat)] [Ev.ok, Ev.readErr] =
        sendLoop [List.replicate 65537 (0 : Nat)]
          (List.replicate 1 Status.pending) (List.replicate 1 [])
          [] [List.replicate 1 Status.pending] 0 false [Ev.ok, Ev.readErr]
        from rfl]
    rw [sendLoop_readErr [List.replicate 65537 (0 : Nat)]
      (List.replicate 1 Status.pending) (List.replicate 1 [])
      [] [List.replicate 1 Status.pending] 0 [Ev.ok, Ev.readErr]
      (by decide) (by decide)
      (by
        rw [show ([List.replicate 65537 (0 : Nat)].getD 0 []) =
            List.replicate 65537 (0 : Nat) from rfl, hloop])]
    rw [show ([List.replicate 65537 (0 : Nat)].getD 0 []) =
        List.replicate 65537 (0 : Nat) from rfl, hloop]
    rw [sendLoop_stop _ _ _ _ _ _ _ _ (Or.inl (by decide))]
    rfl
  have htake : totalLen
      ((chunksOf CHUNK_SIZE (List.replicate 65537 (0 : Nat))).take 1) =
      65536 := by
    rw [← totalLen_flatten, chunksOf_take_flatten CHUNK_SIZE CHUNK_SIZE_pos]
    rw [List.length_take, List.length_replicate]
    decide
  rw [hfinal]
  rw [totalSent_single, htake]
  rw [show (⟨[Status.error],
        [(chunksOf CHUNK_SIZE (List.replicate 65537 (0 : Nat))).take 1],
        [(0, Ctl.meta)],
        [[Status.pending], [Status.active], [Status.error]]⟩ : RunResult).metas
      = [Status.error] from rfl]
  rw [doneBytes_error_single]
  decide

lemma chunkLoop_readErr_zero (f : List Nat) (k : Nat)
    (hk : k * CHUNK_SIZE < f.length) :
    chunkLoop f 0 (List.replicate k Ev.ok ++ [Ev.readErr]) =
      (Outcome.readError, (chunksOf CHUNK_SIZE f).take k, []) := by
  have h := chunkLoop_err f Ev.readErr [] (Or.inl rfl) k 0 (by omega)
  rw [show f.drop 0 = f from rfl,
    show errOutcome Ev.readErr = Outcome.readError from rfl] at h
  exact h

lemma chunkLoop_sendErr_zero (f : List Nat) (k : Nat)
    (hk : k * CHUNK_SIZE < f.length) :
    chunkLoop f 0 (List.replicate k Ev.ok ++ [Ev.sendErr]) =
      (Outcome.sendError, (chunksOf CHUNK_SIZE f).take k, []) := by
  have h := chunkLoop_err f Ev.sendErr [] (Or.inr (Or.inl rfl)) k 0 (by omega)
  rw [show f.drop 0 = f from rfl,
    show errOutcome Ev.sendErr = Outcome.sendError from rfl] at h
  exact h

lemma chunkLoop_cancel_zero (f : List Nat) (k : Nat)
    (hk : k * CHUNK_SIZE < f.length) :
    chunkLoop f 0 (List.replicate k Ev.ok ++ [Ev.cancelNow]) =
      (Outcome.cancelled, (chunksOf CHUNK_SIZE f).take k, []) := by
  have h := chunkLoop_err f Ev.cancelNow [] (Or.inr (Or.inr rfl)) k 0 (by omega)
  rw [show f.drop 0 = f from rfl,
    show errOutcome Ev.cancelNow = Outcome.cancelled from rfl] at h
  exact h

lemma chunks_count_gt (l : List Nat) (k : Nat)
    (hk : k * CHUNK_SIZE < l.length) :
    k < (chunksOf CHUNK_SIZE l).length := by
  rw [chunksOf_length CHUNK_SIZE CHUNK_SIZE_pos]
  have h1 : (k + 1) * CHUNK_SIZE ≤ l.length + CHUNK_SIZE - 1 := by
    rw [Nat.succ_mul]
    have := CHUNK_SIZE_pos
    omega
  have h2 : (k + 1) ≤ (l.length + CHUNK_SIZE - 1) / CHUNK_SIZE :=
    (Nat.le_div_iff_mul_le CHUNK_SIZE_pos).mpr h1
  omega

lemma runEngine_two_start (f g : List Nat) (sched : List Ev) :
    runEngine [f, g] sched =
      sendLoop [f, g] [Status.pending, Status.pending] [[], []] []
        [[Status.pending, Status.pending]] 0 false sched := rfl

/-- Run of a fresh two-file queue whose first file suffers a read error
after k clean chunks: file 0 is marked error with no done message, and the
engine advances to file 1, which completes normally. -/
lemma runEngine_two_readErr (f g : List Nat) (k : Nat)
    (hk : k * CHUNK_SIZE < f.length) :
    runEngine [f, g] (List.replicate k Ev.ok ++ [Ev.readErr]) =
      ⟨[Status.error, Status.done],
       [(chunksOf CHUNK_SIZE f).take k, chunksOf CHUNK_SIZE g],
       [(0, Ctl.meta), (1, Ctl.meta), (1, Ctl.done)],
       [[Status.pending, Status.pending],
        [Status.active, Status.pending],
        [Status.error, Status.pending],
        [Status.error, Status.active],
        [Status.error, Status.done]]⟩ := by
  rw [runEngine_two_start]
  rw [sendLoop_readErr _ _ _ _ _ 0 _ (by simp) (by decide)
    (by rw [show ([f, g].getD 0 []) = f from rfl,
      chunkLoop_readErr_zero f k hk])]
  rw [show ([f, g].getD 0 []) = f from rfl, chunkLoop_readErr_zero f k hk]
  simp only [List.set_cons_zero, List.set_cons_succ, List.nil_append,
    List.cons_append]
  rw [sendLoop_completed _ _ _ _ _ 1 _ (by simp) (by decide)
    (by rw [show ([f, g].getD 1 []) = g from rfl, chunkLoop_nil])]
  rw [show ([f, g].getD 1 []) = g from rfl, chunkLoop_nil,
    show List.drop 0 g = g from rfl]
  simp only [List.set_cons_zero, List.set_cons_succ, List.nil_append,
    List.cons_append]
  rw [sendLoop_stop _ _ _ _ _ _ _ _ (Or.inl (by simp))]

/-- Run of a fresh two-file queue whose first file suffers a channel-send
failure after k clean chunks: file 0 is marked error with no done message,
and the whole queue aborts with file 1 still pending. -/
lemma runEngine_two_sendErr (f g : List Nat) (k : Nat)
    (hk : k * CHUNK_SIZE < f.length) :
    runEngine [f, g] (List.replicate k Ev.ok ++ [Ev.sendErr]) =
      ⟨[Status.error, Status.pending],
       [(chunksOf CHUNK_SIZE f).take k, []],
       [(0, Ctl.meta)],
       [[Status.pending, Status.pending],
        [Status.active, Status.pending],
        [Status.error, Status.pending]]⟩ := by
  rw [runEngine_two_start]
  rw [sendLoop_sendErr _ _ _ _ _ 0 _ (by simp) (by decide)
    (by rw [show ([f, g].getD 0 []) = f from rfl,
      chunkLoop_sendErr_zero f k hk])]
  rw [show ([f, g].getD 0 []) = f from rfl, chunkLoop_sendErr_zero f k hk]
  simp only [List.set_cons_zero, List.set_cons_succ, List.nil_append,
    List.cons_append]

/-- Run of a fresh two-file queue whose first file is cancelled after k
clean chunks: the sender emits the cancel message, marks file 0 error,
sends nothing further for it, and halts without advancing to file 1. -/
lemma runEngine_two_cancel (f g : List Nat) (k : Nat)
    (hk : k * CHUNK_SIZE < f.length) :
    runEngine [f, g] (List.replicate k Ev.ok ++ [Ev.cancelNow]) =
      ⟨[Status.error, Status.pending],
       [(chunksOf CHUNK_SIZE f).take k, []],
       [(0, Ctl.meta), (0, Ctl.cancel)],
       [[Status.pending, Status.pending],
        [Status.active, Status.pending],
        [Status.error, Status.pending]]⟩ := by
  rw [runEngine_two_start]
  rw [sendLoop_cancelled _ _ _ _ _ 0 _ (by simp) (by decide)
    (by rw [show ([f, g].getD 0 []) = f from rfl,
      chunkLoop_cancel_zero f k hk])]
  rw [show ([f, g].getD 0 []) = f from rfl, chunkLoop_cancel_zero f k hk]
  simp only [List.set_cons_zero, List.set_cons_succ, List.nil_append,
    List.cons_append]

/-- C5: error-scope split — after k clean chunks of the first file, a
chunk read failure marks that file error, sends no done for it, and the
engine advances to the next queued file (which completes and gets its
done); a channel-send failure marks the file error, sends no done, and
aborts the remaining queue — the next file stays pending and the only
message ever sent is the first file's meta.  Neither case retries. -/
theorem error_scope_split (f g : List Nat) (k : Nat)
    (hk : k * CHUNK_SIZE < f.length) :
    ((runEngine [f, g] (List.replicate k Ev.ok ++ [Ev.readErr])).metas =
        [Status.error, Status.done] ∧
      (0, Ctl.done) ∉
        (runEngine [f, g] (List.replicate k Ev.ok ++ [Ev.readErr])).msgs ∧
      (1, Ctl.done) ∈
        (runEngine [f, g] (List.replicate k Ev.ok ++ [Ev.readErr])).msgs) ∧
    ((runEngine [f, g] (List.replicate k Ev.ok ++ [Ev.sendErr])).metas =
        [Status.error, Status.pending] ∧
      (runEngine [f, g] (List.replicate k Ev.ok ++ [Ev.sendErr])).msgs =
        [(0, Ctl.meta)]) := by
  rw [runEngine_two_readErr f g k hk, runEngine_two_sendErr f g k hk]
  exact ⟨⟨rfl, by simp, by simp⟩, rfl, rfl⟩

/-- Witness for error_scope_split: a 2-byte then 1-byte queue interrupted
before the first chunk. -/
theorem error_scope_split_witness :
    ((runEngine [[1, 2], [3]] (List.replicate 0 Ev.ok ++ [Ev.readErr])).metas =
        [Status.error, Status.done] ∧
      (0, Ctl.done) ∉
        (runEngine [[1, 2], [3]] (List.replicate 0 Ev.ok ++ [Ev.readErr])).msgs ∧
      (1, Ctl.done) ∈
        (runEngine [[1, 2], [3]] (List.replicate 0 Ev.ok ++ [Ev.readErr])).msgs) ∧
    ((runEngine [[1, 2], [3]] (List.replicate 0 Ev.ok ++ [Ev.sendErr])).metas =
        [Status.error, Status.pending] ∧
      (runEngine [[1, 2], [3]] (List.replicate 0 Ev.ok ++ [Ev.sendErr])).msgs =
        [(0, Ctl.meta)]) :=
  error_scope_split [1, 2] [3] 0 (by decide)

/-- C6: cancellation cleanup — cancelling after k clean chunks of the
current file makes the sender emit the cancel control message, mark the
entry error, send no further binary chunks for that file, and halt queue
processing without advancing (the next file stays pending); and a receiver
that gets the meta, those k chunks, and the cancel discards all buffered
partial data (rxMeta, rxChunks, rxBytes reset) and produces no artifact. -/
theorem cancellation_cleanup (f g : List Nat) (k : Nat)
    (hk : k * CHUNK_SIZE < f.length) (m : RxMeta) (hm : m.size = f.length) :
    (runEngine [f, g] (List.replicate k Ev.ok ++ [Ev.cancelNow]) =
      ⟨[Status.error, Status.pending],
       [(chunksOf CHUNK_SIZE f).take k, []],
       [(0, Ctl.meta), (0, Ctl.cancel)],
       [[Status.pending, Status.pending],
        [Status.active, Status.pending],
        [Status.error, Status.pending]]⟩) ∧
    runRx (Msg.meta m :: (((chunksOf CHUNK_SIZE f).take k).map Msg.binary
      ++ [Msg.cancel])) rxInit = rxInit := by
  refine ⟨runEngine_two_cancel f g k hk, ?_⟩
  rw [runRx_cons, show onData (Msg.meta m) rxInit = ⟨some m, [], 0, []⟩ from rfl,
    runRx_append]
  rw [runRx_under m ((chunksOf CHUNK_SIZE f).take k) [] 0 []
    (by
      intro j hj hjle
      rw [List.take_take]
      have hkn := chunks_count_gt f k hk
      have hjk : j ≤ k := by
        rw [List.length_take] at hjle
        omega
      rw [min_eq_left hjk]
      have hlt := take_chunks_lt f j (by omega)
      omega)]
  rw [runRx_cons, runRx_nil]
  rfl

/-- Witness for cancellation_cleanup: cancellation before the first chunk
of a 2-byte file. -/
theorem cancellation_cleanup_witness :
    (runEngine [[1, 2], [3]] (List.replicate 0 Ev.ok ++ [Ev.cancelNow]) =
      ⟨[Status.error, Status.pending],
       [(chunksOf CHUNK_SIZE [1, 2]).take 0, []],
       [(0, Ctl.meta), (0, Ctl.cancel)],
       [[Status.pending, Status.pending],
        [Status.active, Status.pending],
        [Status.error, Status.pending]]⟩) ∧
    runRx (Msg.meta ⟨"c", 2, "t"⟩ ::
      (((chunksOf CHUNK_SIZE [1, 2]).take 0).map Msg.binary ++ [Msg.cancel]))
      rxInit = rxInit :=
  cancellation_cleanup [1, 2] [3] 0 (by decide) ⟨"c", 2, "t"⟩ rfl

/-- C3 (amended): restricted to the chunk loop's own sends — exactly the
sends gated by the drain check of line 445 — and the network's drains,
dc.bufferedAmount never exceeds BUFFER_THRESHOLD by more than one chunk's
worth of bytes: every chunk send happens from at or below the threshold
and adds at most CHUNK_SIZE bytes.  (Control messages are sent without any
backpressure check, so the unrestricted claim fails; see the
counterexample.) -/
theorem backpressure_chunk_bound (b : Nat) (h : ChunkReachable b) :
    b ≤ BUFFER_THRESHOLD + CHUNK_SIZE := by
  induction h with
  | refl => exact Nat.zero_le _
  | tail hsteps hstep ih =>
      cases hstep with
      | drain d => omega
      | sendChunk len hlen hb => omega

/-- Witness for backpressure_chunk_bound: the state after one chunk send
from an empty buffer. -/
theorem backpressure_chunk_bound_witness :
    CHUNK_SIZE ≤ BUFFER_THRESHOLD + CHUNK_SIZE :=
  backpressure_chunk_bound CHUNK_SIZE
    (show ChunkReachable CHUNK_SIZE from
      Relation.ReflTransGen.single
        (by
          have h := ChunkStep.sendChunk 0 CHUNK_SIZE le_rfl (by decide)
          rw [Nat.zero_add] at h
          exact h))

/-- C3 counterexample: the claim as stated fails on the code because
sendControl (app.js lines 512-515) sends control messages with no
backpressure check.  After 65 gated chunk sends with no drain fill the
buffer to exactly BUFFER_THRESHOLD + CHUNK_SIZE, an unguarded 16-byte
control send (for instance the done message of line 491) pushes
dc.bufferedAmount strictly beyond the high-water mark plus one chunk. -/
theorem backpressure_cx :
    ¬ (∀ b, BufReachable b → b ≤ BUFFER_THRESHOLD + CHUNK_SIZE) := by
  intro hall
  have chain : ∀ k, k ≤ 65 → BufReachable (k * CHUNK_SIZE) := by
    intro k
    induction k with
    | zero =>
        intro _
        rw [show ((0 : Nat) * CHUNK_SIZE) = 0 from Nat.zero_mul _]
        exact Relation.ReflTransGen.refl
    | succ k ih =>
        intro hk
        have h1 : BufReachable (k * CHUNK_SIZE) := ih (by omega)
        have hstep : BufStep (k * CHUNK_SIZE) ((k + 1) * CHUNK_SIZE) := by
          have h2 := BufStep.sendChunk (k * CHUNK_SIZE) CHUNK_SIZE le_rfl
            (by
              have hk64 : k ≤ 64 := by omega
              calc k * CHUNK_SIZE ≤ 64 * CHUNK_SIZE :=
                    Nat.mul_le_mul hk64 le_rfl
                _ = BUFFER_THRESHOLD := by decide)
          rw [show (k + 1) * CHUNK_SIZE = k * CHUNK_SIZE + CHUNK_SIZE from
            by ring]
          exact h2
        exact Relation.ReflTransGen.tail h1 hstep
  have hreach : BufReachable (65 * CHUNK_SIZE + 16) :=
    Relation.ReflTransGen.tail (chain 65 le_rfl)
      (BufStep.sendCtl (65 * CHUNK_SIZE) 16)
  have hbound := hall (65 * CHUNK_SIZE + 16) hreach
  rw [show (65 : Nat) * CHUNK_SIZE = BUFFER_THRESHOLD + CHUNK_SIZE from
    by decide] at hbound
  omega

end ShareDrop
